import Mathlib

/-
Verification of the rider-name normalization logic of the tdf-pool scraper
repository. Two source functions are embedded:

  * TdFScraper._format_name          (scrape_stage_results.py, lines 265-326),
    the layout B path (surname-first listing pages);
  * FixedSeleniumScraper.reformat_rider_name and its inner proper_case
    (import-stages.py, lines 51-74), the layout A path (result-row pages).

Python strings are modelled as lists of characters. The Python str methods
used by the source (strip, split, lower, title, isupper) are embedded for the
character repertoire that occurs in rider names: ASCII plus the common
accented Latin-1 letters. The call
unicodedata.normalize(NFKD, s).encode(ascii, ignore) is embedded by a
character table mapping each accented letter of the repertoire to its ASCII
base letter (its NFKD decomposition starts with that base letter and the
ascii-ignore encode drops the combining marks); other non-ASCII characters
have no decomposition in the repertoire and are dropped, as the ignore
encode does.
-/

namespace TdfPool

/-- Whitespace characters recognized by the Python str.strip and str.split
methods, restricted to the ASCII repertoire. -/
def isPySpace (c : Char) : Bool :=
  c = ' ' || c = '\t' || c = '\n' || c = '\r' || c.toNat = 11 || c.toNat = 12

/-- Pairs of cased characters of the modelled repertoire, lowercase first:
the ASCII letters followed by the accented Latin-1 letters. -/
def casePairs : List (Char × Char) :=
  [('a','A'), ('b','B'), ('c','C'), ('d','D'), ('e','E'), ('f','F'), ('g','G'),
   ('h','H'), ('i','I'), ('j','J'), ('k','K'), ('l','L'), ('m','M'), ('n','N'),
   ('o','O'), ('p','P'), ('q','Q'), ('r','R'), ('s','S'), ('t','T'), ('u','U'),
   ('v','V'), ('w','W'), ('x','X'), ('y','Y'), ('z','Z'),
   ('á','Á'), ('à','À'), ('â','Â'), ('ä','Ä'), ('ã','Ã'), ('å','Å'),
   ('é','É'), ('è','È'), ('ê','Ê'), ('ë','Ë'),
   ('í','Í'), ('ì','Ì'), ('î','Î'), ('ï','Ï'),
   ('ó','Ó'), ('ò','Ò'), ('ô','Ô'), ('ö','Ö'), ('õ','Õ'),
   ('ú','Ú'), ('ù','Ù'), ('û','Û'), ('ü','Ü'),
   ('ý','Ý'), ('ñ','Ñ'), ('ç','Ç'),
   ('č','Č'), ('ć','Ć'), ('š','Š'), ('ž','Ž')]

/-- Character is lowercase (in the modelled repertoire). -/
def isLowerCh (c : Char) : Bool := casePairs.any (fun p => p.1 = c)

/-- Character is uppercase (in the modelled repertoire). -/
def isUpperCh (c : Char) : Bool := casePairs.any (fun p => p.2 = c)

/-- Character is cased, in the sense of the Python title and isupper
methods, restricted to the modelled repertoire. -/
def isCasedCh (c : Char) : Bool := isLowerCh c || isUpperCh c

/-- Lowercase a character, as the Python str.lower method does. -/
def toLowerCh (c : Char) : Char :=
  ((casePairs.find? (fun p => p.2 = c)).map Prod.fst).getD c

/-- Uppercase a character, as the Python str.upper method does. -/
def toUpperCh (c : Char) : Char :=
  ((casePairs.find? (fun p => p.1 = c)).map Prod.snd).getD c

/-- The Python str.lower method. -/
def pyLower (cs : List Char) : List Char := cs.map toLowerCh

/-- Helper for pyTitle; the boolean records whether the previous character
was cased. -/
def pyTitleAux : List Char → Bool → List Char
  | [], _ => []
  | c :: rest, prevCased =>
    (if isCasedCh c then (if prevCased then toLowerCh c else toUpperCh c) else c)
      :: pyTitleAux rest (isCasedCh c)

/-- The Python str.title method: a cased character is uppercased when the
previous character is not cased and lowercased otherwise. -/
def pyTitle (cs : List Char) : List Char := pyTitleAux cs false

/-- The Python str.isupper method: at least one cased character and no
lowercase character. -/
def pyIsUpper (cs : List Char) : Bool :=
  cs.any isCasedCh && cs.all (fun c => !isLowerCh c)

/-- The Python str.strip method with no argument: remove leading and
trailing whitespace. -/
def pyStrip (cs : List Char) : List Char :=
  ((cs.dropWhile isPySpace).reverse.dropWhile isPySpace).reverse

/-- Helper for pySplit; the accumulator holds the current token reversed. -/
def splitWSAux : List Char → List Char → List (List Char)
  | [], acc => if acc = [] then [] else [acc.reverse]
  | c :: rest, acc =>
    if isPySpace c then
      if acc = [] then splitWSAux rest []
      else acc.reverse :: splitWSAux rest []
    else splitWSAux rest (c :: acc)

/-- The Python str.split method with no argument: split on runs of
whitespace, dropping empty tokens. -/
def pySplit (cs : List Char) : List (List Char) := splitWSAux cs []

/-- Join tokens with single spaces; models the Python space-join and the
f-string assembly used by both source functions. -/
def joinSpace : List (List Char) → List Char
  | [] => []
  | [t] => t
  | t :: u :: rest => t ++ ' ' :: joinSpace (u :: rest)

/-- NFKD base letter of each accented letter of the repertoire. -/
def decompPairs : List (Char × Char) :=
  [('á','a'), ('à','a'), ('â','a'), ('ä','a'), ('ã','a'), ('å','a'),
   ('é','e'), ('è','e'), ('ê','e'), ('ë','e'),
   ('í','i'), ('ì','i'), ('î','i'), ('ï','i'),
   ('ó','o'), ('ò','o'), ('ô','o'), ('ö','o'), ('õ','o'),
   ('ú','u'), ('ù','u'), ('û','u'), ('ü','u'),
   ('ý','y'), ('ñ','n'), ('ç','c'),
   ('Á','A'), ('À','A'), ('Â','A'), ('Ä','A'), ('Ã','A'), ('Å','A'),
   ('É','E'), ('È','E'), ('Ê','E'), ('Ë','E'),
   ('Í','I'), ('Ì','I'), ('Î','I'), ('Ï','I'),
   ('Ó','O'), ('Ò','O'), ('Ô','O'), ('Ö','O'), ('Õ','O'),
   ('Ú','U'), ('Ù','U'), ('Û','U'), ('Ü','U'),
   ('Ý','Y'), ('Ñ','N'), ('Ç','C'),
   ('č','c'), ('ć','c'), ('š','s'), ('ž','z'),
   ('Č','C'), ('Ć','C'), ('Š','S'), ('Ž','Z')]

/-- ASCII content of one character after NFKD decomposition and the
ascii-ignore encode: ASCII characters pass through, accented letters keep
their base letter, other non-ASCII characters are dropped. -/
def asciiDecompChar (c : Char) : List Char :=
  if c.toNat < 128 then [c]
  else ((decompPairs.find? (fun p => p.1 = c)).map (fun p => [p.2])).getD []

/-- Embeds unicodedata.normalize(NFKD, s).encode(ascii, ignore) from
import-stages.py line 57, for the modelled repertoire. -/
def nfkdAsciiIgnore (cs : List Char) : List Char :=
  (cs.map asciiDecompChar).flatten

/-- The particle set of TdFScraper._format_name
(scrape_stage_results.py line 296). -/
def particles : List (List Char) :=
  ["van", "de", "der", "den", "le", "la", "del", "da", "di", "dos",
   "von", "zu"].map String.data

/-- Helper scanning for the last particle index; i is the index of the head
of the remaining list, acc the best index found so far. -/
def lastParticleIdxAux : List (List Char) → Nat → Option Nat → Option Nat
  | [], _, acc => acc
  | p :: rest, i, acc =>
    lastParticleIdxAux rest (i + 1)
      (if particles.contains (pyLower p) then some i else acc)

/-- Index of the last token whose lowercased form is a particle
(scrape_stage_results.py lines 298-302). -/
def lastParticleIdx (parts : List (List Char)) : Option Nat :=
  lastParticleIdxAux parts 0 none

/-- Casing repair of _format_name (scrape_stage_results.py lines 319-320):
p.title() if p.isupper() else p. -/
def caseFix (p : List Char) : List Char := if pyIsUpper p then pyTitle p else p

/-- Index one past the end of the surname span of _format_name: with a
particle at last index i the surname runs through min (i + 2) len
(scrape_stage_results.py line 307); with no particle the surname is the
first token only, so the span ends at 1 (line 312). -/
def surnameEndIdx (parts : List (List Char)) : Nat :=
  match lastParticleIdx parts with
  | some i => min (i + 2) parts.length
  | none => 1

/-- Embeds TdFScraper._format_name (scrape_stage_results.py lines 286-326)
on the character-list level: strip, split, return the stripped input when
fewer than two tokens or when the surname span consumed every token,
otherwise reassemble first-name tokens then surname tokens, each repaired
by caseFix. -/
def formatNameCore (name : List Char) : List Char :=
  if (pySplit (pyStrip name)).length < 2 then pyStrip name
  else if (pySplit (pyStrip name)).drop (surnameEndIdx (pySplit (pyStrip name))) = [] then
    pyStrip name
  else
    joinSpace (((pySplit (pyStrip name)).drop
        (surnameEndIdx (pySplit (pyStrip name)))).map caseFix)
      ++ ' ' :: joinSpace (((pySplit (pyStrip name)).take
        (surnameEndIdx (pySplit (pyStrip name)))).map caseFix)

/-- Embeds TdFScraper._format_name at the Optional-string level: None and
the empty string are falsy in Python, so the source returns None for both
(scrape_stage_results.py lines 286-287). -/
def formatName : Option String → Option String
  | none => none
  | some s => if s.data = [] then none else some (String.mk (formatNameCore s.data))

/-- The surname particle set of FixedSeleniumScraper.reformat_rider_name
(import-stages.py line 64); the source names this set surname_prefixes.
It lacks von and zu. -/
def surnameParticlesA : List (List Char) :=
  ["van", "der", "de", "den", "le", "dos", "da", "di", "del", "la"].map String.data

/-- Embeds the inner proper_case of reformat_rider_name (import-stages.py
lines 66-68): the lowercased token itself when it is a recognized particle,
otherwise part.title(). -/
def proper_case (part : List Char) : List Char :=
  if surnameParticlesA.contains (pyLower part) then pyLower part else pyTitle part

/-- Embeds FixedSeleniumScraper.reformat_rider_name (import-stages.py lines
51-74) on the character-list level: empty input passes through; accents are
stripped, then the string is stripped and split; with fewer than two tokens
the ORIGINAL (unstripped, accented) input is title-cased; otherwise the
last token is taken as the first name and moved to the front of the
properly cased surname tokens. -/
def reformatRiderNameCore (name : List Char) : List Char :=
  if name = [] then []
  else if (pySplit (pyStrip (nfkdAsciiIgnore name))).length < 2 then pyTitle name
  else
    proper_case ((pySplit (pyStrip (nfkdAsciiIgnore name))).getLastD [])
      ++ ' ' :: joinSpace
        ((pySplit (pyStrip (nfkdAsciiIgnore name))).dropLast.map proper_case)

/-- String-level wrapper of reformatRiderNameCore. -/
def reformatRiderName (s : String) : String :=
  String.mk (reformatRiderNameCore s.data)

/-- Optional-string wrapper: None is falsy in Python, so the source returns
the empty string for it (import-stages.py lines 53-54). -/
def reformatRiderNameOpt : Option String → String
  | none => ""
  | some s => reformatRiderName s

/-! Character-level lemmas about the casing tables. -/

/-- Tokens marked OK: nonempty and free of whitespace. Every token produced
by pySplit satisfies this. -/
def TokenOK (t : List Char) : Prop := t ≠ [] ∧ ∀ c ∈ t, isPySpace c = false

lemma toUpperCh_eq_self (c : Char) (h : isLowerCh c = false) : toUpperCh c = c := by
  have hfind : casePairs.find? (fun p => p.1 = c) = none := by
    rw [List.find?_eq_none]
    intro p hp hpc
    have hl : isLowerCh c = true := by
      unfold isLowerCh
      exact List.any_eq_true.mpr ⟨p, hp, hpc⟩
    rw [hl] at h
    exact Bool.noConfusion h
  unfold toUpperCh
  rw [hfind]
  rfl

lemma toLowerCh_eq_self (c : Char) (h : isUpperCh c = false) : toLowerCh c = c := by
  have hfind : casePairs.find? (fun p => p.2 = c) = none := by
    rw [List.find?_eq_none]
    intro p hp hpc
    have hl : isUpperCh c = true := by
      unfold isUpperCh
      exact List.any_eq_true.mpr ⟨p, hp, hpc⟩
    rw [hl] at h
    exact Bool.noConfusion h
  unfold toLowerCh
  rw [hfind]
  rfl

lemma casePairs_upper_lower : ∀ p ∈ casePairs, toLowerCh (toUpperCh p.1) = toLowerCh p.1 := by
  decide

lemma casePairs_lower_idem : ∀ p ∈ casePairs, toLowerCh (toLowerCh p.2) = toLowerCh p.2 := by
  decide

lemma casePairs_ascii :
    ∀ p ∈ casePairs, (p.2.toNat < 128 → p.1.toNat < 128) ∧ (p.1.toNat < 128 → p.2.toNat < 128) := by
  decide

lemma casePairs_nospace : ∀ p ∈ casePairs, isPySpace p.1 = false ∧ isPySpace p.2 = false := by
  decide

lemma toLowerCh_toUpperCh (c : Char) : toLowerCh (toUpperCh c) = toLowerCh c := by
  by_cases h : isLowerCh c = true
  · obtain ⟨p, hp, hpc⟩ := List.any_eq_true.mp h
    have hc : p.1 = c := of_decide_eq_true hpc
    subst hc
    exact casePairs_upper_lower p hp
  · rw [toUpperCh_eq_self c (Bool.eq_false_iff.mpr h)]

lemma toLowerCh_idem (c : Char) : toLowerCh (toLowerCh c) = toLowerCh c := by
  by_cases h : isUpperCh c = true
  · obtain ⟨p, hp, hpc⟩ := List.any_eq_true.mp h
    have hc : p.2 = c := of_decide_eq_true hpc
    subst hc
    exact casePairs_lower_idem p hp
  · have h' := toLowerCh_eq_self c (Bool.eq_false_iff.mpr h)
    rw [h']
    exact h'

lemma toLowerCh_ascii (c : Char) (h : c.toNat < 128) : (toLowerCh c).toNat < 128 := by
  unfold toLowerCh
  cases hf : casePairs.find? (fun p => p.2 = c) with
  | none => simpa using h
  | some q =>
    have hq := List.mem_of_find?_eq_some hf
    have hqc : q.2 = c := by
      have hx := List.find?_some hf
      simpa using hx
    exact (casePairs_ascii q hq).1 (hqc ▸ h)

lemma toUpperCh_ascii (c : Char) (h : c.toNat < 128) : (toUpperCh c).toNat < 128 := by
  unfold toUpperCh
  cases hf : casePairs.find? (fun p => p.1 = c) with
  | none => simpa using h
  | some q =>
    have hq := List.mem_of_find?_eq_some hf
    have hqc : q.1 = c := by
      have hx := List.find?_some hf
      simpa using hx
    exact (casePairs_ascii q hq).2 (hqc ▸ h)

lemma toLowerCh_nospace (c : Char) (h : isPySpace c = false) :
    isPySpace (toLowerCh c) = false := by
  unfold toLowerCh
  cases hf : casePairs.find? (fun p => p.2 = c) with
  | none => simpa using h
  | some q =>
    have hq := List.mem_of_find?_eq_some hf
    exact (casePairs_nospace q hq).1

lemma toUpperCh_nospace (c : Char) (h : isPySpace c = false) :
    isPySpace (toUpperCh c) = false := by
  unfold toUpperCh
  cases hf : casePairs.find? (fun p => p.1 = c) with
  | none => simpa using h
  | some q =>
    have hq := List.mem_of_find?_eq_some hf
    exact (casePairs_nospace q hq).2

/-! Lemmas about the embedded Python string methods. -/

lemma pyTitleAux_length (cs : List Char) (b : Bool) :
    (pyTitleAux cs b).length = cs.length := by
  induction cs generalizing b with
  | nil => rfl
  | cons c rest ih => simp [pyTitleAux, ih]

lemma pyTitle_ne_nil (cs : List Char) (h : cs ≠ []) : pyTitle cs ≠ [] := by
  intro hnil
  apply h
  have hl := pyTitleAux_length cs false
  rw [show pyTitleAux cs false = pyTitle cs from rfl, hnil] at hl
  exact List.length_eq_zero.mp hl.symm

lemma pyLower_pyTitleAux (cs : List Char) (b : Bool) :
    pyLower (pyTitleAux cs b) = pyLower cs := by
  induction cs generalizing b with
  | nil => rfl
  | cons c rest ih =>
    simp only [pyTitleAux, pyLower, List.map_cons] at ih ⊢
    refine congrArg₂ List.cons ?_ (ih (isCasedCh c))
    by_cases hc : isCasedCh c = true
    · rw [if_pos hc]
      cases b with
      | false => simp only [Bool.false_eq_true, if_false, toLowerCh_toUpperCh]
      | true => simp only [if_true, toLowerCh_idem]
    · rw [if_neg hc]

lemma pyLower_pyTitle (cs : List Char) : pyLower (pyTitle cs) = pyLower cs :=
  pyLower_pyTitleAux cs false

lemma pyLower_caseFix (p : List Char) : pyLower (caseFix p) = pyLower p := by
  unfold caseFix
  by_cases h : pyIsUpper p = true
  · rw [if_pos h]
    exact pyLower_pyTitle p
  · rw [if_neg h]

lemma mem_pyTitleAux (cs : List Char) (b : Bool) (d : Char) (hd : d ∈ pyTitleAux cs b) :
    ∃ c ∈ cs, d = toLowerCh c ∨ d = toUpperCh c ∨ d = c := by
  induction cs generalizing b with
  | nil => simp [pyTitleAux] at hd
  | cons c rest ih =>
    simp only [pyTitleAux, List.mem_cons] at hd
    rcases hd with hd | hd
    · refine ⟨c, List.mem_cons_self c rest, ?_⟩
      by_cases hc : isCasedCh c = true
      · rw [if_pos hc] at hd
        cases b with
        | false => right; left; simpa using hd
        | true => left; simpa using hd
      · rw [if_neg hc] at hd
        right; right; exact hd
    · obtain ⟨c0, hc0, hcase⟩ := ih (isCasedCh c) hd
      exact ⟨c0, List.mem_cons_of_mem c hc0, hcase⟩

lemma pyTitle_nospace (cs : List Char) (h : ∀ c ∈ cs, isPySpace c = false) :
    ∀ d ∈ pyTitle cs, isPySpace d = false := by
  intro d hd
  obtain ⟨c, hc, hcase⟩ := mem_pyTitleAux cs false d hd
  rcases hcase with rfl | rfl | rfl
  · exact toLowerCh_nospace c (h c hc)
  · exact toUpperCh_nospace c (h c hc)
  · exact h _ hc

lemma pyTitle_ascii (cs : List Char) (h : ∀ c ∈ cs, c.toNat < 128) :
    ∀ d ∈ pyTitle cs, d.toNat < 128 := by
  intro d hd
  obtain ⟨c, hc, hcase⟩ := mem_pyTitleAux cs false d hd
  rcases hcase with rfl | rfl | rfl
  · exact toLowerCh_ascii c (h c hc)
  · exact toUpperCh_ascii c (h c hc)
  · exact h _ hc

lemma pyLower_ne_nil (cs : List Char) (h : cs ≠ []) : pyLower cs ≠ [] := by
  unfold pyLower
  simpa using h

lemma pyLower_nospace (cs : List Char) (h : ∀ c ∈ cs, isPySpace c = false) :
    ∀ d ∈ pyLower cs, isPySpace d = false := by
  intro d hd
  obtain ⟨c, hc, rfl⟩ := List.mem_map.mp hd
  exact toLowerCh_nospace c (h c hc)

lemma pyLower_ascii (cs : List Char) (h : ∀ c ∈ cs, c.toNat < 128) :
    ∀ d ∈ pyLower cs, d.toNat < 128 := by
  intro d hd
  obtain ⟨c, hc, rfl⟩ := List.mem_map.mp hd
  exact toLowerCh_ascii c (h c hc)

/-! Lemmas about splitting, stripping and joining. -/

lemma splitWSAux_nil (acc : List Char) :
    splitWSAux [] acc = if acc = [] then [] else [acc.reverse] := rfl

lemma splitWSAux_cons (c : Char) (rest acc : List Char) :
    splitWSAux (c :: rest) acc =
      if isPySpace c = true then
        (if acc = [] then splitWSAux rest [] else acc.reverse :: splitWSAux rest [])
      else splitWSAux rest (c :: acc) := rfl

lemma splitWSAux_token (t : List Char) (cs acc : List Char) :
    (∀ c ∈ t, isPySpace c = false) →
    splitWSAux (t ++ cs) acc = splitWSAux cs (t.reverse ++ acc) := by
  induction t generalizing acc with
  | nil =>
    intro _
    simp
  | cons c t ih =>
    intro ht
    have hc : isPySpace c = false := ht c (List.mem_cons_self c t)
    rw [List.cons_append, splitWSAux_cons, hc]
    simp only [Bool.false_eq_true, if_false]
    rw [ih (c :: acc) (fun d hd => ht d (List.mem_cons_of_mem c hd))]
    simp

lemma joinSpace_cons (t : List Char) (rest : List (List Char)) (h : rest ≠ []) :
    joinSpace (t :: rest) = t ++ ' ' :: joinSpace rest := by
  cases rest with
  | nil => exact absurd rfl h
  | cons u r => rfl

lemma joinSpace_append (as bs : List (List Char)) (ha : as ≠ []) (hb : bs ≠ []) :
    joinSpace (as ++ bs) = joinSpace as ++ ' ' :: joinSpace bs := by
  induction as with
  | nil => exact absurd rfl ha
  | cons t rest ih =>
    cases rest with
    | nil =>
      rw [List.cons_append, List.nil_append, joinSpace_cons t bs hb]
      rfl
    | cons u r =>
      have hne : u :: r ≠ [] := by simp
      have h2 : (u :: r) ++ bs ≠ [] := by simp
      rw [List.cons_append, joinSpace_cons t _ h2, ih hne, joinSpace_cons t _ hne]
      simp

lemma pySplit_joinSpace (ts : List (List Char)) (h : ∀ t ∈ ts, TokenOK t) :
    pySplit (joinSpace ts) = ts := by
  induction ts with
  | nil => rfl
  | cons t rest ih =>
    obtain ⟨hne, hsp⟩ := h t (List.mem_cons_self t rest)
    cases rest with
    | nil =>
      unfold pySplit
      have hj : joinSpace [t] = t ++ [] := by simp [joinSpace]
      rw [hj, splitWSAux_token t [] [] hsp, splitWSAux_nil]
      rw [List.append_nil, if_neg (by simpa using hne), List.reverse_reverse]
    | cons u r =>
      have hr : u :: r ≠ [] := by simp
      unfold pySplit
      rw [joinSpace_cons t _ hr, splitWSAux_token t _ [] hsp, List.append_nil]
      rw [splitWSAux_cons, if_pos (by decide), if_neg (by simpa using hne),
        List.reverse_reverse]
      rw [show splitWSAux (joinSpace (u :: r)) [] = pySplit (joinSpace (u :: r)) from rfl]
      rw [ih (fun x hx => h x (List.mem_cons_of_mem t hx))]

lemma splitWSAux_tokenOK (cs : List Char) (acc : List Char)
    (hacc : ∀ c ∈ acc, isPySpace c = false) :
    ∀ t ∈ splitWSAux cs acc, TokenOK t := by
  induction cs generalizing acc with
  | nil =>
    intro t ht
    by_cases h : acc = []
    · rw [splitWSAux_nil, if_pos h] at ht
      simp at ht
    · rw [splitWSAux_nil, if_neg h] at ht
      rw [List.mem_singleton] at ht
      subst ht
      exact ⟨by simpa using h, fun c hc => hacc c (List.mem_reverse.mp hc)⟩
  | cons c rest ih =>
    intro t ht
    by_cases hc : isPySpace c = true
    · by_cases h : acc = []
      · rw [splitWSAux_cons, if_pos hc, if_pos h] at ht
        exact ih [] (by simp) t ht
      · rw [splitWSAux_cons, if_pos hc, if_neg h] at ht
        rcases List.mem_cons.mp ht with rfl | ht
        · exact ⟨by simpa using h, fun d hd => hacc d (List.mem_reverse.mp hd)⟩
        · exact ih [] (by simp) t ht
    · have hcf : isPySpace c = false := Bool.eq_false_iff.mpr hc
      rw [splitWSAux_cons, if_neg hc] at ht
      refine ih (c :: acc) ?_ t ht
      intro d hd
      rcases List.mem_cons.mp hd with rfl | hd
      · exact hcf
      · exact hacc d hd

lemma pySplit_tokenOK (cs : List Char) : ∀ t ∈ pySplit cs, TokenOK t :=
  splitWSAux_tokenOK cs [] (by simp)

lemma splitWSAux_subset (cs : List Char) (acc : List Char) :
    ∀ t ∈ splitWSAux cs acc, ∀ c ∈ t, c ∈ cs ∨ c ∈ acc := by
  induction cs generalizing acc with
  | nil =>
    intro t ht c hc
    by_cases h : acc = []
    · rw [splitWSAux_nil, if_pos h] at ht
      simp at ht
    · rw [splitWSAux_nil, if_neg h, List.mem_singleton] at ht
      subst ht
      exact Or.inr (List.mem_reverse.mp hc)
  | cons d rest ih =>
    intro t ht c hc
    by_cases hd : isPySpace d = true
    · by_cases h : acc = []
      · rw [splitWSAux_cons, if_pos hd, if_pos h] at ht
        rcases ih [] t ht c hc with h2 | h2
        · exact Or.inl (List.mem_cons_of_mem d h2)
        · simp at h2
      · rw [splitWSAux_cons, if_pos hd, if_neg h] at ht
        rcases List.mem_cons.mp ht with rfl | ht
        · exact Or.inr (List.mem_reverse.mp hc)
        · rcases ih [] t ht c hc with h2 | h2
          · exact Or.inl (List.mem_cons_of_mem d h2)
          · simp at h2
    · rw [splitWSAux_cons, if_neg hd] at ht
      rcases ih (d :: acc) t ht c hc with h2 | h2
      · exact Or.inl (List.mem_cons_of_mem d h2)
      · rcases List.mem_cons.mp h2 with rfl | h2
        · exact Or.inl (List.mem_cons_self c rest)
        · exact Or.inr h2

lemma pySplit_subset (cs : List Char) : ∀ t ∈ pySplit cs, ∀ c ∈ t, c ∈ cs := by
  intro t ht c hc
  rcases splitWSAux_subset cs [] t ht c hc with h | h
  · exact h
  · simp at h

lemma pyStrip_subset (cs : List Char) : ∀ c ∈ pyStrip cs, c ∈ cs := by
  intro c hc
  unfold pyStrip at hc
  rw [List.mem_reverse] at hc
  have h1 : c ∈ (cs.dropWhile isPySpace).reverse :=
    (List.dropWhile_sublist isPySpace).subset hc
  rw [List.mem_reverse] at h1
  exact (List.dropWhile_sublist isPySpace).subset h1

lemma mem_joinSpace (ts : List (List Char)) (c : Char) (hc : c ∈ joinSpace ts) :
    c = ' ' ∨ ∃ t ∈ ts, c ∈ t := by
  induction ts with
  | nil => simp [joinSpace] at hc
  | cons t rest ih =>
    cases rest with
    | nil => exact Or.inr ⟨t, List.mem_cons_self t [], hc⟩
    | cons u r =>
      rw [joinSpace_cons t _ (by simp)] at hc
      rcases List.mem_append.mp hc with h | h
      · exact Or.inr ⟨t, List.mem_cons_self t _, h⟩
      · rcases List.mem_cons.mp h with rfl | h
        · exact Or.inl rfl
        · rcases ih h with h2 | ⟨t2, ht2, hct2⟩
          · exact Or.inl h2
          · exact Or.inr ⟨t2, List.mem_cons_of_mem t ht2, hct2⟩

lemma joinSpace_ne_nil (ts : List (List Char)) (hne : ts ≠ [])
    (h : ∀ t ∈ ts, TokenOK t) : joinSpace ts ≠ [] := by
  obtain ⟨t, rest, rfl⟩ := List.exists_cons_of_ne_nil hne
  obtain ⟨htne, _⟩ := h t (List.mem_cons_self t rest)
  obtain ⟨c, t', rfl⟩ := List.exists_cons_of_ne_nil htne
  cases rest with
  | nil => simp [joinSpace]
  | cons u r =>
    rw [joinSpace_cons _ _ (by simp)]
    simp

lemma joinSpace_cons_head (c : Char) (t : List Char) (rest : List (List Char)) :
    ∃ X, joinSpace ((c :: t) :: rest) = c :: X := by
  cases rest with
  | nil => exact ⟨t, rfl⟩
  | cons u r =>
    refine ⟨t ++ ' ' :: joinSpace (u :: r), ?_⟩
    rw [joinSpace_cons _ _ (by simp), List.cons_append]

lemma dropWhile_joinSpace (ts : List (List Char)) (h : ∀ t ∈ ts, TokenOK t)
    (hne : ts ≠ []) : (joinSpace ts).dropWhile isPySpace = joinSpace ts := by
  obtain ⟨t, rest, rfl⟩ := List.exists_cons_of_ne_nil hne
  obtain ⟨htne, htsp⟩ := h t (List.mem_cons_self t rest)
  obtain ⟨c, t', rfl⟩ := List.exists_cons_of_ne_nil htne
  obtain ⟨X, hX⟩ := joinSpace_cons_head c t' rest
  rw [hX, List.dropWhile_cons,
    if_neg (by simp [htsp c (List.mem_cons_self c t')])]

lemma reverse_joinSpace (ts : List (List Char)) :
    (joinSpace ts).reverse = joinSpace ((ts.map List.reverse).reverse) := by
  induction ts with
  | nil => rfl
  | cons t rest ih =>
    cases rest with
    | nil => simp [joinSpace]
    | cons u r =>
      rw [joinSpace_cons t _ (by simp), List.map_cons, List.reverse_cons,
        joinSpace_append _ [t.reverse] (by simp) (by simp), ← ih]
      simp [joinSpace]

lemma pyStrip_joinSpace (ts : List (List Char)) (h : ∀ t ∈ ts, TokenOK t)
    (hne : ts ≠ []) : pyStrip (joinSpace ts) = joinSpace ts := by
  have h' : ∀ t ∈ (ts.map List.reverse).reverse, TokenOK t := by
    intro t ht
    rw [List.mem_reverse] at ht
    obtain ⟨t0, ht0, rfl⟩ := List.mem_map.mp ht
    obtain ⟨h1, h2⟩ := h t0 ht0
    exact ⟨by simpa using h1, fun c hc => h2 c (List.mem_reverse.mp hc)⟩
  have hne' : (ts.map List.reverse).reverse ≠ [] := by
    simpa using hne
  unfold pyStrip
  rw [dropWhile_joinSpace ts h hne, reverse_joinSpace,
    dropWhile_joinSpace _ h' hne', ← reverse_joinSpace, List.reverse_reverse]

/-! Lemmas about accent stripping, the particle scan, and the two
embedded normalizer paths. -/

lemma decompPairs_ascii : ∀ p ∈ decompPairs, p.2.toNat < 128 := by decide

lemma mem_nfkdAsciiIgnore (cs : List Char) (c : Char) (hc : c ∈ nfkdAsciiIgnore cs) :
    c.toNat < 128 := by
  unfold nfkdAsciiIgnore at hc
  obtain ⟨l, hl, hcl⟩ := List.mem_flatten.mp hc
  obtain ⟨d, _, rfl⟩ := List.mem_map.mp hl
  unfold asciiDecompChar at hcl
  by_cases h : d.toNat < 128
  · rw [if_pos h] at hcl
    rw [List.mem_singleton] at hcl
    subst hcl
    exact h
  · rw [if_neg h] at hcl
    cases hf : decompPairs.find? (fun p => p.1 = d) with
    | none =>
      rw [hf] at hcl
      simp at hcl
    | some q =>
      rw [hf] at hcl
      simp only [Option.map_some', Option.getD_some, List.mem_singleton] at hcl
      subst hcl
      exact decompPairs_ascii q (List.mem_of_find?_eq_some hf)

lemma nfkdAsciiIgnore_of_ascii (cs : List Char) (h : ∀ c ∈ cs, c.toNat < 128) :
    nfkdAsciiIgnore cs = cs := by
  induction cs with
  | nil => rfl
  | cons c rest ih =>
    unfold nfkdAsciiIgnore at ih ⊢
    rw [List.map_cons, List.flatten_cons]
    rw [show asciiDecompChar c = [c] from by
      unfold asciiDecompChar
      rw [if_pos (h c (List.mem_cons_self c rest))]]
    rw [ih (fun d hd => h d (List.mem_cons_of_mem c hd))]
    rfl

lemma lastParticleIdxAux_no_particle (parts : List (List Char)) (i : Nat)
    (acc : Option Nat) (h : ∀ p ∈ parts, particles.contains (pyLower p) = false) :
    lastParticleIdxAux parts i acc = acc := by
  induction parts generalizing i acc with
  | nil => rfl
  | cons p rest ih =>
    show lastParticleIdxAux rest (i + 1)
      (if particles.contains (pyLower p) then some i else acc) = acc
    rw [h p (List.mem_cons_self p rest)]
    simp only [Bool.false_eq_true, if_false]
    exact ih (i + 1) acc (fun q hq => h q (List.mem_cons_of_mem p hq))

lemma lastParticleIdx_no_particle (parts : List (List Char))
    (h : ∀ p ∈ parts, particles.contains (pyLower p) = false) :
    lastParticleIdx parts = none :=
  lastParticleIdxAux_no_particle parts 0 none h

lemma surnameEndIdx_pos (parts : List (List Char)) (h2 : 2 ≤ parts.length) :
    1 ≤ surnameEndIdx parts := by
  unfold surnameEndIdx
  cases lastParticleIdx parts with
  | none => exact Nat.le_refl 1
  | some i =>
    rw [Nat.le_min]
    constructor <;> omega

lemma tokenOK_caseFix (t : List Char) (h : TokenOK t) : TokenOK (caseFix t) := by
  obtain ⟨hne, hsp⟩ := h
  unfold caseFix
  by_cases hu : pyIsUpper t = true
  · rw [if_pos hu]
    exact ⟨pyTitle_ne_nil t hne, pyTitle_nospace t hsp⟩
  · rw [if_neg hu]
    exact ⟨hne, hsp⟩

lemma tokenOK_proper_case (t : List Char) (h : TokenOK t) : TokenOK (proper_case t) := by
  obtain ⟨hne, hsp⟩ := h
  unfold proper_case
  by_cases hp : surnameParticlesA.contains (pyLower t) = true
  · rw [if_pos hp]
    exact ⟨pyLower_ne_nil t hne, pyLower_nospace t hsp⟩
  · rw [if_neg hp]
    exact ⟨pyTitle_ne_nil t hne, pyTitle_nospace t hsp⟩

lemma ascii_proper_case (t : List Char) (h : ∀ c ∈ t, c.toNat < 128) :
    ∀ c ∈ proper_case t, c.toNat < 128 := by
  intro c hc
  unfold proper_case at hc
  by_cases hp : surnameParticlesA.contains (pyLower t) = true
  · rw [if_pos hp] at hc
    exact pyLower_ascii t h c hc
  · rw [if_neg hp] at hc
    exact pyTitle_ascii t h c hc

lemma getLastD_mem_cons (l : List (List Char)) (d : List Char) :
    l.getLastD d ∈ d :: l := by
  induction l generalizing d with
  | nil => simp
  | cons u r ih =>
    rw [List.getLastD_cons]
    exact List.mem_cons_of_mem d (ih u)

lemma getLastD_mem (l : List (List Char)) (h : l ≠ []) : l.getLastD [] ∈ l := by
  obtain ⟨t, rest, rfl⟩ := List.exists_cons_of_ne_nil h
  rw [List.getLastD_cons]
  exact getLastD_mem_cons rest t

/-- Success-path formula for _format_name: with at least two tokens and a
nonempty first-name span, the output is the reassembled reordering. -/
lemma formatNameCore_success (cs : List Char) (parts : List (List Char)) (k : Nat)
    (hparts : pySplit (pyStrip cs) = parts) (hlen : 2 ≤ parts.length)
    (hk : surnameEndIdx parts = k) (hne : parts.drop k ≠ []) :
    formatNameCore cs =
      joinSpace ((parts.drop k).map caseFix)
        ++ ' ' :: joinSpace ((parts.take k).map caseFix) := by
  unfold formatNameCore
  rw [hparts, hk, if_neg (by omega), if_neg hne]

/-- Success-path formula for reformat_rider_name: with at least two tokens
after accent stripping, the last token moves to the front. -/
lemma reformatRiderNameCore_success (cs : List Char) (parts : List (List Char))
    (hne : cs ≠ []) (hparts : pySplit (pyStrip (nfkdAsciiIgnore cs)) = parts)
    (hlen : 2 ≤ parts.length) :
    reformatRiderNameCore cs =
      proper_case (parts.getLastD [])
        ++ ' ' :: joinSpace (parts.dropLast.map proper_case) := by
  unfold reformatRiderNameCore
  rw [if_neg hne, hparts, if_neg (by omega)]

lemma map_eq_self (f : List Char → List Char) (l : List (List Char))
    (h : ∀ t ∈ l, f t = t) : l.map f = l := by
  induction l with
  | nil => rfl
  | cons t rest ih =>
    rw [List.map_cons, h t (List.mem_cons_self t rest),
      ih (fun x hx => h x (List.mem_cons_of_mem t hx))]

lemma caseFix_eq_self (t : List Char) (h : pyTitle t = t) : caseFix t = t := by
  unfold caseFix
  by_cases hu : pyIsUpper t = true
  · rw [if_pos hu]
    exact h
  · rw [if_neg hu]

lemma proper_case_eq_self (t : List Char)
    (h1 : surnameParticlesA.contains (pyLower t) = false) (h2 : pyTitle t = t) :
    proper_case t = t := by
  unfold proper_case
  rw [h1]
  simp only [Bool.false_eq_true, if_false]
  exact h2

lemma pySplit_pyStrip_joinSpace (ts : List (List Char)) (h : ∀ t ∈ ts, TokenOK t)
    (hne : ts ≠ []) : pySplit (pyStrip (joinSpace ts)) = ts := by
  rw [pyStrip_joinSpace ts h hne, pySplit_joinSpace ts h]

/-- Success-path output of _format_name as a single space-join, together
with the facts that its tokens are OK. -/
lemma formatNameCore_success_join (cs : List Char) (parts : List (List Char)) (k : Nat)
    (hparts : pySplit (pyStrip cs) = parts) (hlen : 2 ≤ parts.length)
    (hk : surnameEndIdx parts = k) (hne : parts.drop k ≠ []) :
    formatNameCore cs = joinSpace ((parts.drop k ++ parts.take k).map caseFix) ∧
    (∀ t ∈ (parts.drop k ++ parts.take k).map caseFix, TokenOK t) ∧
    (parts.drop k ++ parts.take k).map caseFix ≠ [] := by
  have hk1 : 1 ≤ k := hk ▸ surnameEndIdx_pos parts hlen
  have hpartsOK : ∀ t ∈ parts, TokenOK t := by
    intro t ht
    exact pySplit_tokenOK (pyStrip cs) t (hparts ▸ ht)
  have htake : parts.take k ≠ [] := by
    intro h
    rcases List.take_eq_nil_iff.mp h with h | h
    · omega
    · rw [h] at hlen
      simp at hlen
  have hOK : ∀ t ∈ (parts.drop k ++ parts.take k).map caseFix, TokenOK t := by
    intro t ht
    obtain ⟨t0, ht0, rfl⟩ := List.mem_map.mp ht
    refine tokenOK_caseFix t0 (hpartsOK t0 ?_)
    rcases List.mem_append.mp ht0 with h | h
    · exact List.mem_of_mem_drop h
    · exact List.mem_of_mem_take h
  refine ⟨?_, hOK, ?_⟩
  · rw [formatNameCore_success cs parts k hparts hlen hk hne, List.map_append,
      joinSpace_append _ _ (by simpa [List.map_eq_nil_iff] using hne)
        (by simpa [List.map_eq_nil_iff] using htake)]
  · simp only [ne_eq, List.map_eq_nil_iff, List.append_eq_nil]
    intro h
    exact hne h.1

/-- Success-path output of reformat_rider_name as a single space-join,
together with the facts that its tokens are OK. -/
lemma reformatRiderNameCore_success_join (cs : List Char) (parts : List (List Char))
    (hne : cs ≠ []) (hparts : pySplit (pyStrip (nfkdAsciiIgnore cs)) = parts)
    (hlen : 2 ≤ parts.length) :
    reformatRiderNameCore cs =
      joinSpace (proper_case (parts.getLastD []) :: parts.dropLast.map proper_case) ∧
    (∀ t ∈ proper_case (parts.getLastD []) :: parts.dropLast.map proper_case, TokenOK t) ∧
    (proper_case (parts.getLastD []) :: parts.dropLast.map proper_case : List (List Char)) ≠ [] := by
  have hpartsOK : ∀ t ∈ parts, TokenOK t := by
    intro t ht
    exact pySplit_tokenOK (pyStrip (nfkdAsciiIgnore cs)) t (hparts ▸ ht)
  have hpne : parts ≠ [] := by
    intro h
    rw [h] at hlen
    simp at hlen
  have hdlne : parts.dropLast ≠ [] := by
    refine List.ne_nil_of_length_pos ?_
    rw [List.length_dropLast]
    omega
  have hOK : ∀ t ∈ proper_case (parts.getLastD []) :: parts.dropLast.map proper_case,
      TokenOK t := by
    intro t ht
    rcases List.mem_cons.mp ht with rfl | ht
    · exact tokenOK_proper_case _ (hpartsOK _ (getLastD_mem parts hpne))
    · obtain ⟨t0, ht0, rfl⟩ := List.mem_map.mp ht
      exact tokenOK_proper_case t0 (hpartsOK t0 (List.mem_of_mem_dropLast ht0))
  refine ⟨?_, hOK, by simp⟩
  rw [reformatRiderNameCore_success cs parts hne hparts hlen,
    joinSpace_cons (proper_case (parts.getLastD [])) (parts.dropLast.map proper_case)
      (fun h => hdlne (List.map_eq_nil_iff.mp h))]

/-! Claim theorems. -/

/-- C1 counterexample: the claim says the layout A path returns
"Simon Yates" unchanged, performing no reordering; the code moves the last
token to the front and returns "Yates Simon". -/
theorem c1_counterexample :
    reformatRiderName "Simon Yates" = "Yates Simon" ∧
    reformatRiderName "Simon Yates" ≠ "Simon Yates" :=
  ⟨rfl, by decide⟩

/-- C1 amended: the layout A path does reorder. After accent stripping,
when the input splits into exactly the two tokens a and b, the output is
b then a, each passed through the particle-aware casing function; in
particular "Simon Yates" maps to "Yates Simon" and "Yates Simon" maps to
"Simon Yates". -/
theorem c1_layoutA_reorders :
    (∀ (cs a b : List Char), cs ≠ [] →
        pySplit (pyStrip (nfkdAsciiIgnore cs)) = [a, b] →
        reformatRiderNameCore cs = proper_case b ++ ' ' :: proper_case a) ∧
    reformatRiderName "Yates Simon" = "Simon Yates" := by
  constructor
  · intro cs a b hne hsplit
    rw [reformatRiderNameCore_success cs [a, b] hne hsplit (by simp)]
    rfl
  · rfl

/-- C1 witness: the amended theorem applied to the input "Simon Yates". -/
theorem c1_layoutA_reorders_witness :
    (String.data "Simon Yates" ≠ [] ∧
      pySplit (pyStrip (nfkdAsciiIgnore (String.data "Simon Yates"))) =
        [String.data "Simon", String.data "Yates"]) ∧
    reformatRiderNameCore (String.data "Simon Yates") =
      proper_case (String.data "Yates") ++ ' ' :: proper_case (String.data "Simon") :=
  ⟨⟨by decide, by decide⟩,
    c1_layoutA_reorders.1 (String.data "Simon Yates") (String.data "Simon")
      (String.data "Yates") (by decide) (by decide)⟩

/-- C3 counterexample: on the layout B path the input "VAN AERT Wout"
produces "Wout Van Aert", whose particle token "Van" is not lowercase even
though "VAN" is a recognized particle case variant. -/
theorem c3_counterexample :
    formatName (some "VAN AERT Wout") = some "Wout Van Aert" ∧
    String.data "Van" ∈ pySplit (String.data "Wout Van Aert") ∧
    particles.contains (pyLower (String.data "Van")) = true ∧
    pyLower (String.data "Van") ≠ String.data "Van" :=
  ⟨rfl, by decide, by decide, by decide⟩

/-- C3 amended: only the layout A casing pass forces recognized particles
to lowercase; the layout B casing repair treats a particle like any other
token, rewriting it only when it is entirely uppercase ("VAN" becomes
"Van", and "Van" is kept), so a non-lowercase particle variant is not
rendered lowercase on the layout B path. -/
theorem c3_particle_casing :
    (∀ p : List Char, surnameParticlesA.contains (pyLower p) = true →
        proper_case p = pyLower p) ∧
    (∀ p : List Char, pyIsUpper p = true → caseFix p = pyTitle p) ∧
    (∀ p : List Char, pyIsUpper p = false → caseFix p = p) ∧
    caseFix (String.data "VAN") = String.data "Van" ∧
    caseFix (String.data "Van") = String.data "Van" := by
  refine ⟨?_, ?_, ?_, by decide, by decide⟩
  · intro p hp
    unfold proper_case
    rw [if_pos hp]
  · intro p hp
    unfold caseFix
    rw [if_pos hp]
  · intro p hp
    unfold caseFix
    rw [if_neg (by rw [hp]; exact Bool.false_ne_true)]

/-- C3 witness: the amended theorem applied to the particle variants VAN
and Van. -/
theorem c3_particle_casing_witness :
    (surnameParticlesA.contains (pyLower (String.data "VAN")) = true ∧
      proper_case (String.data "VAN") = pyLower (String.data "VAN")) ∧
    (pyIsUpper (String.data "VAN") = true ∧
      caseFix (String.data "VAN") = pyTitle (String.data "VAN")) ∧
    (pyIsUpper (String.data "Van") = false ∧
      caseFix (String.data "Van") = String.data "Van") :=
  ⟨⟨by decide, c3_particle_casing.1 (String.data "VAN") (by decide)⟩,
   ⟨by decide, c3_particle_casing.2.1 (String.data "VAN") (by decide)⟩,
   ⟨by decide, c3_particle_casing.2.2.1 (String.data "Van") (by decide)⟩⟩

/-- C4 counterexample: "von" is a particle of the layout B set, but the
layout A set lacks it, so the layout A casing function title-cases it to
"Von" instead of treating it as a particle. -/
theorem c4_counterexample :
    particles.contains (String.data "von") = true ∧
    surnameParticlesA.contains (String.data "von") = false ∧
    proper_case (String.data "von") = String.data "Von" :=
  ⟨by decide, by decide, by decide⟩

/-- C4 amended: the layout B path recognizes the twelve particles van,
de, der, den, le, la, del, da, di, dos, von, zu; the layout A path
recognizes only the ten-element subset missing von and zu. -/
theorem c4_particle_sets :
    surnameParticlesA.all (fun t => particles.contains t) = true ∧
    particles.length = 12 ∧ surnameParticlesA.length = 10 ∧
    particles.contains (String.data "von") = true ∧
    surnameParticlesA.contains (String.data "von") = false ∧
    particles.contains (String.data "zu") = true ∧
    surnameParticlesA.contains (String.data "zu") = false :=
  ⟨by decide, rfl, rfl, by decide, by decide, by decide, by decide⟩

/-- C6 counterexample: the layout A path rewrites the mixed-case token
"McEwen", which is not entirely uppercase, to "Mcewen"; the claim says
such tokens are left as-is on both paths. -/
theorem c6_counterexample :
    reformatRiderName "McEwen Robbie" = "Robbie Mcewen" ∧
    pyIsUpper (String.data "McEwen") = false ∧
    String.data "Mcewen" ≠ String.data "McEwen" :=
  ⟨rfl, by decide, by decide⟩

/-- C6 amended: the claimed casing repair holds on the layout B path,
which rewrites only entirely-uppercase tokens ("HEALY Ben" gives
"Ben Healy", "McEwen Robbie" keeps "McEwen"); the layout A path instead
title-cases every non-particle token unconditionally, so "McEwen" becomes
"Mcewen" there. -/
theorem c6_casing_repair :
    (∀ p : List Char, pyIsUpper p = false → caseFix p = p) ∧
    (∀ p : List Char, surnameParticlesA.contains (pyLower p) = false →
        proper_case p = pyTitle p) ∧
    formatName (some "HEALY Ben") = some "Ben Healy" ∧
    formatName (some "McEwen Robbie") = some "Robbie McEwen" ∧
    proper_case (String.data "McEwen") = String.data "Mcewen" := by
  refine ⟨?_, ?_, rfl, rfl, by decide⟩
  · intro p hp
    unfold caseFix
    rw [if_neg (by rw [hp]; exact Bool.false_ne_true)]
  · intro p hp
    unfold proper_case
    rw [if_neg (by rw [hp]; exact Bool.false_ne_true)]

/-- C6 witness: the amended theorem applied to the token "McEwen". -/
theorem c6_casing_repair_witness :
    (pyIsUpper (String.data "McEwen") = false ∧
      caseFix (String.data "McEwen") = String.data "McEwen") ∧
    (surnameParticlesA.contains (pyLower (String.data "McEwen")) = false ∧
      proper_case (String.data "McEwen") = pyTitle (String.data "McEwen")) :=
  ⟨⟨by decide, c6_casing_repair.1 (String.data "McEwen") (by decide)⟩,
   ⟨by decide, c6_casing_repair.2.1 (String.data "McEwen") (by decide)⟩⟩

/-- C2 counterexample: feeding the layout B canonical output of
"Simon Yates" through the layout A path returns "Simon Yates", not the
layout B output "Yates Simon", so the claimed equation fails on a name in
first-last order with no particles. -/
theorem c2_counterexample :
    formatName (some "Simon Yates") = some "Yates Simon" ∧
    reformatRiderNameOpt (formatName (some "Simon Yates")) = "Simon Yates" ∧
    ("Simon Yates" : String) ≠ "Yates Simon" :=
  ⟨rfl, rfl, by decide⟩

/-- C2 amended: composing the layout A path after the layout B path is the
identity on the original input, not on the layout B output: for tokens
that are title-cased ASCII words containing no particle of either set,
layout B rotates the first token to the end and layout A rotates the last
token back to the front, recovering the input. -/
theorem c2_roundtrip_identity (ts : List (List Char))
    (hlen : 2 ≤ ts.length)
    (htok : ∀ t ∈ ts, t ≠ [] ∧ (∀ c ∈ t, c.toNat < 128 ∧ isPySpace c = false) ∧
      pyTitle t = t ∧ particles.contains (pyLower t) = false ∧
      surnameParticlesA.contains (pyLower t) = false) :
    formatNameCore (joinSpace ts) = joinSpace (ts.drop 1 ++ ts.take 1) ∧
    reformatRiderNameCore (formatNameCore (joinSpace ts)) = joinSpace ts := by
  have hne : ts ≠ [] := by
    intro h
    rw [h] at hlen
    simp at hlen
  have hOK : ∀ t ∈ ts, TokenOK t := fun t ht =>
    ⟨(htok t ht).1, fun c hc => ((htok t ht).2.1 c hc).2⟩
  have hsplit : pySplit (pyStrip (joinSpace ts)) = ts :=
    pySplit_pyStrip_joinSpace ts hOK hne
  have hnop : lastParticleIdx ts = none :=
    lastParticleIdx_no_particle ts (fun p hp => (htok p hp).2.2.2.1)
  have hk : surnameEndIdx ts = 1 := by
    unfold surnameEndIdx
    rw [hnop]
  have hdrop : ts.drop 1 ≠ [] := by
    intro h
    rw [List.drop_eq_nil_iff] at h
    omega
  have htake : ts.take 1 ≠ [] := by
    intro h
    rcases List.take_eq_nil_iff.mp h with h | h
    · exact absurd h (by omega)
    · exact hne h
  have hmem2 : ∀ t ∈ ts.drop 1 ++ ts.take 1, t ∈ ts := by
    intro t ht
    rcases List.mem_append.mp ht with h | h
    · exact List.mem_of_mem_drop h
    · exact List.mem_of_mem_take h
  have h1 : formatNameCore (joinSpace ts) = joinSpace (ts.drop 1 ++ ts.take 1) := by
    rw [formatNameCore_success (joinSpace ts) ts 1 hsplit hlen hk hdrop,
      map_eq_self caseFix (ts.drop 1)
        (fun t ht => caseFix_eq_self t (htok t (List.mem_of_mem_drop ht)).2.2.1),
      map_eq_self caseFix (ts.take 1)
        (fun t ht => caseFix_eq_self t (htok t (List.mem_of_mem_take ht)).2.2.1),
      ← joinSpace_append (ts.drop 1) (ts.take 1) hdrop htake]
  refine ⟨h1, ?_⟩
  rw [h1]
  have hOK2 : ∀ t ∈ ts.drop 1 ++ ts.take 1, TokenOK t := fun t ht => hOK t (hmem2 t ht)
  have hne2 : ts.drop 1 ++ ts.take 1 ≠ [] := by
    intro h
    exact hdrop (List.append_eq_nil.mp h).1
  have hXne : joinSpace (ts.drop 1 ++ ts.take 1) ≠ [] :=
    joinSpace_ne_nil _ hne2 hOK2
  have hascii : ∀ c ∈ joinSpace (ts.drop 1 ++ ts.take 1), c.toNat < 128 := by
    intro c hc
    rcases mem_joinSpace _ c hc with rfl | ⟨t, ht, hct⟩
    · decide
    · exact ((htok t (hmem2 t ht)).2.1 c hct).1
  have hsplit2 :
      pySplit (pyStrip (nfkdAsciiIgnore (joinSpace (ts.drop 1 ++ ts.take 1)))) =
        ts.drop 1 ++ ts.take 1 := by
    rw [nfkdAsciiIgnore_of_ascii _ hascii]
    exact pySplit_pyStrip_joinSpace _ hOK2 hne2
  have hlen2 : 2 ≤ (ts.drop 1 ++ ts.take 1).length := by
    rw [List.length_append, List.length_drop, List.length_take]
    omega
  rw [reformatRiderNameCore_success _ _ hXne hsplit2 hlen2]
  obtain ⟨t0, rest, rfl⟩ := List.exists_cons_of_ne_nil hne
  have hrest : rest ≠ [] := by
    simp only [List.length_cons] at hlen
    exact List.ne_nil_of_length_pos (by omega)
  simp only [List.drop_succ_cons, List.drop_zero, List.take_succ_cons, List.take_zero]
  rw [List.getLastD_concat, List.dropLast_concat,
    map_eq_self proper_case rest (fun t ht => proper_case_eq_self t
      (htok t (List.mem_cons_of_mem t0 ht)).2.2.2.2
      (htok t (List.mem_cons_of_mem t0 ht)).2.2.1),
    proper_case_eq_self t0 (htok t0 (List.mem_cons_self t0 rest)).2.2.2.2
      (htok t0 (List.mem_cons_self t0 rest)).2.2.1,
    joinSpace_cons t0 rest hrest]

/-- C2 witness: the amended theorem applied to the two tokens of
"Simon Yates". -/
theorem c2_roundtrip_identity_witness :
    (2 ≤ ([String.data "Simon", String.data "Yates"] : List (List Char)).length ∧
      ∀ t ∈ ([String.data "Simon", String.data "Yates"] : List (List Char)),
        t ≠ [] ∧ (∀ c ∈ t, c.toNat < 128 ∧ isPySpace c = false) ∧
        pyTitle t = t ∧ particles.contains (pyLower t) = false ∧
        surnameParticlesA.contains (pyLower t) = false) ∧
    (formatNameCore (joinSpace [String.data "Simon", String.data "Yates"]) =
        joinSpace
          (([String.data "Simon", String.data "Yates"] : List (List Char)).drop 1 ++
            ([String.data "Simon", String.data "Yates"] : List (List Char)).take 1) ∧
      reformatRiderNameCore
          (formatNameCore (joinSpace [String.data "Simon", String.data "Yates"])) =
        joinSpace [String.data "Simon", String.data "Yates"]) :=
  ⟨⟨by decide, by decide⟩,
    c2_roundtrip_identity [String.data "Simon", String.data "Yates"]
      (by decide) (by decide)⟩

/-- C5 counterexample: the layout B path performs no accent stripping; the
input "Piétri Simon" produces "Simon Piétri", which still contains the
accented letter. -/
theorem c5_counterexample :
    formatName (some "Piétri Simon") = some "Simon Piétri" ∧
    'é' ∈ String.data "Simon Piétri" ∧ 128 ≤ ('é').toNat :=
  ⟨rfl, by decide, by decide⟩

/-- C5 amended: only the layout A path with at least two tokens strips
accents, and its output is then entirely ASCII; the layout B path never
strips accents, and a single-token layout A input is title-cased from the
original string with accents intact. -/
theorem c5_accent_stripping :
    (∀ cs : List Char, cs ≠ [] →
        2 ≤ (pySplit (pyStrip (nfkdAsciiIgnore cs))).length →
        ∀ c ∈ reformatRiderNameCore cs, c.toNat < 128) ∧
    reformatRiderName "Piétri" = "Piétri" ∧
    formatNameCore (String.data "Piétri Simon") = String.data "Simon Piétri" := by
  refine ⟨?_, rfl, rfl⟩
  intro cs hne hlen c hc
  have hpartsOK : ∀ t ∈ pySplit (pyStrip (nfkdAsciiIgnore cs)), ∀ d ∈ t, d.toNat < 128 := by
    intro t ht d hd
    have h1 : d ∈ pyStrip (nfkdAsciiIgnore cs) :=
      pySplit_subset (pyStrip (nfkdAsciiIgnore cs)) t ht d hd
    exact mem_nfkdAsciiIgnore cs d (pyStrip_subset (nfkdAsciiIgnore cs) d h1)
  have hpne : pySplit (pyStrip (nfkdAsciiIgnore cs)) ≠ [] := by
    intro h
    rw [h] at hlen
    simp at hlen
  rw [reformatRiderNameCore_success cs (pySplit (pyStrip (nfkdAsciiIgnore cs)))
    hne rfl hlen] at hc
  rcases List.mem_append.mp hc with h | h
  · exact ascii_proper_case _ (hpartsOK _ (getLastD_mem _ hpne)) c h
  · rcases List.mem_cons.mp h with rfl | h
    · decide
    · rcases mem_joinSpace _ c h with rfl | ⟨t, ht, hct⟩
      · decide
      · obtain ⟨t0, ht0, rfl⟩ := List.mem_map.mp ht
        exact ascii_proper_case t0 (hpartsOK t0 (List.mem_of_mem_dropLast ht0)) c hct

/-- C5 witness: the ASCII guarantee of the amended theorem applied to the
input "Piétri Simon" on the layout A path. -/
theorem c5_accent_stripping_witness :
    (String.data "Piétri Simon" ≠ [] ∧
      2 ≤ (pySplit (pyStrip (nfkdAsciiIgnore (String.data "Piétri Simon")))).length) ∧
    ∀ c ∈ reformatRiderNameCore (String.data "Piétri Simon"), c.toNat < 128 :=
  ⟨⟨by decide, by decide⟩,
    c5_accent_stripping.1 (String.data "Piétri Simon") (by decide) (by decide)⟩

/-- C7: layout B surname detection. With a particle found at last index i
and a word following it plus a nonempty remainder, the surname span is the
tokens through index i + 1 and the trailing tokens form the first name;
with no particle the surname is the first token only; the example
"van den Berg Marijn" yields "Marijn van den Berg". -/
theorem c7_surname_detection :
    (∀ (cs : List Char) (parts : List (List Char)) (i : Nat),
        pySplit (pyStrip cs) = parts → 2 ≤ parts.length →
        lastParticleIdx parts = some i → i + 2 < parts.length →
        formatNameCore cs =
          joinSpace ((parts.drop (i + 2)).map caseFix)
            ++ ' ' :: joinSpace ((parts.take (i + 2)).map caseFix)) ∧
    (∀ (cs : List Char) (parts : List (List Char)),
        pySplit (pyStrip cs) = parts → 2 ≤ parts.length →
        lastParticleIdx parts = none →
        formatNameCore cs =
          joinSpace ((parts.drop 1).map caseFix)
            ++ ' ' :: joinSpace ((parts.take 1).map caseFix)) ∧
    formatName (some "van den Berg Marijn") = some "Marijn van den Berg" := by
  refine ⟨?_, ?_, rfl⟩
  · intro cs parts i hparts hlen hlast hlt
    have hk : surnameEndIdx parts = i + 2 := by
      unfold surnameEndIdx
      rw [hlast]
      exact Nat.min_eq_left (by omega)
    refine formatNameCore_success cs parts (i + 2) hparts hlen hk ?_
    intro h
    rw [List.drop_eq_nil_iff] at h
    omega
  · intro cs parts hparts hlen hlast
    have hk : surnameEndIdx parts = 1 := by
      unfold surnameEndIdx
      rw [hlast]
    refine formatNameCore_success cs parts 1 hparts hlen hk ?_
    intro h
    rw [List.drop_eq_nil_iff] at h
    omega

/-- C7 witness: the particle case of the theorem applied to
"van den Berg Marijn", whose last particle "den" sits at index 1. -/
theorem c7_surname_detection_witness :
    (pySplit (pyStrip (String.data "van den Berg Marijn")) =
        [String.data "van", String.data "den", String.data "Berg",
          String.data "Marijn"] ∧
      lastParticleIdx [String.data "van", String.data "den", String.data "Berg",
        String.data "Marijn"] = some 1) ∧
    formatNameCore (String.data "van den Berg Marijn") =
      joinSpace (([String.data "van", String.data "den", String.data "Berg",
          String.data "Marijn"].drop 3).map caseFix)
        ++ ' ' :: joinSpace (([String.data "van", String.data "den",
          String.data "Berg", String.data "Marijn"].take 3).map caseFix) :=
  ⟨⟨by decide, by decide⟩,
    c7_surname_detection.1 (String.data "van den Berg Marijn")
      [String.data "van", String.data "den", String.data "Berg", String.data "Marijn"]
      1 (by decide) (by decide) (by decide) (by decide)⟩

/-- C8 counterexample: when the surname scan consumes every token the
layout B path returns the stripped input unchanged, so internal double
spaces survive; "van  den" is returned with its double space, which is not
a single-space-separated token list. -/
theorem c8_counterexample :
    formatName (some "van  den") = some "van  den" ∧
    joinSpace (pySplit (String.data "van  den")) ≠ String.data "van  den" :=
  ⟨rfl, by decide⟩

/-- C8 amended: the single-space, no-outer-whitespace shape holds for every
successfully split output of either path, but not for the pass-through
fallbacks: the layout B fallback returns the stripped input with internal
whitespace intact, and the layout A single-token branch title-cases the
original input keeping even leading and trailing spaces. -/
theorem c8_whitespace_normalization :
    (∀ (cs : List Char) (parts : List (List Char)) (k : Nat),
        pySplit (pyStrip cs) = parts → 2 ≤ parts.length →
        surnameEndIdx parts = k → parts.drop k ≠ [] →
        pyStrip (formatNameCore cs) = formatNameCore cs ∧
        joinSpace (pySplit (formatNameCore cs)) = formatNameCore cs) ∧
    (∀ (cs : List Char) (parts : List (List Char)),
        cs ≠ [] → pySplit (pyStrip (nfkdAsciiIgnore cs)) = parts →
        2 ≤ parts.length →
        pyStrip (reformatRiderNameCore cs) = reformatRiderNameCore cs ∧
        joinSpace (pySplit (reformatRiderNameCore cs)) = reformatRiderNameCore cs) ∧
    formatNameCore (String.data "van  den") = String.data "van  den" ∧
    reformatRiderNameCore (String.data " Pantani ") = String.data " Pantani " := by
  refine ⟨?_, ?_, rfl, rfl⟩
  · intro cs parts k hparts hlen hk hne
    obtain ⟨hout, hOK, hne2⟩ := formatNameCore_success_join cs parts k hparts hlen hk hne
    rw [hout, pySplit_joinSpace _ hOK]
    exact ⟨pyStrip_joinSpace _ hOK hne2, rfl⟩
  · intro cs parts hne hparts hlen
    obtain ⟨hout, hOK, hne2⟩ :=
      reformatRiderNameCore_success_join cs parts hne hparts hlen
    rw [hout, pySplit_joinSpace _ hOK]
    exact ⟨pyStrip_joinSpace _ hOK hne2, rfl⟩

/-- C8 witness: both normalization clauses applied to concrete two-token
inputs on each path. -/
theorem c8_whitespace_normalization_witness :
    (pySplit (pyStrip (String.data "Yates Simon")) =
        [String.data "Yates", String.data "Simon"] ∧
      surnameEndIdx [String.data "Yates", String.data "Simon"] = 1 ∧
      pyStrip (formatNameCore (String.data "Yates Simon")) =
        formatNameCore (String.data "Yates Simon")) ∧
    (pySplit (pyStrip (nfkdAsciiIgnore (String.data "Yates Simon"))) =
        [String.data "Yates", String.data "Simon"] ∧
      pyStrip (reformatRiderNameCore (String.data "Yates Simon")) =
        reformatRiderNameCore (String.data "Yates Simon")) :=
  ⟨⟨by decide, by decide,
      (c8_whitespace_normalization.1 (String.data "Yates Simon")
        [String.data "Yates", String.data "Simon"] 1 (by decide) (by decide)
        (by decide) (by decide)).1⟩,
   ⟨by decide,
      (c8_whitespace_normalization.2.1 (String.data "Yates Simon")
        [String.data "Yates", String.data "Simon"] (by decide) (by decide)
        (by decide)).1⟩⟩

/-- C9: neither path can raise: null and empty inputs propagate to a
null or empty result, and every nonempty string input produces a result on
both paths, including tokens with digits or punctuation. -/
theorem c9_totality_null_safety :
    formatName none = none ∧ formatName (some "") = none ∧
    reformatRiderNameOpt none = "" ∧ reformatRiderName "" = "" ∧
    formatName (some "Merckx 123!") = some "123! Merckx" ∧
    (∀ s : String, s.data ≠ [] → ∃ t : String, formatName (some s) = some t) ∧
    (∀ s : String, ∃ t : String, reformatRiderName s = t) := by
  refine ⟨rfl, rfl, rfl, rfl, rfl, ?_, fun s => ⟨reformatRiderName s, rfl⟩⟩
  intro s hs
  refine ⟨String.mk (formatNameCore s.data), ?_⟩
  show (if s.data = [] then none else some (String.mk (formatNameCore s.data))) =
    some (String.mk (formatNameCore s.data))
  rw [if_neg hs]

/-- C9 witness: the nonempty-input clause applied to a punctuated input. -/
theorem c9_totality_null_safety_witness :
    String.data "Merckx 123!" ≠ [] ∧
    ∃ t : String, formatName (some "Merckx 123!") = some t :=
  ⟨by decide, c9_totality_null_safety.2.2.2.2.2.1 "Merckx 123!" (by decide)⟩

/-- C10: on every successful split, the layout B output is exactly the
input token list rotated so the first-name span precedes the surname span,
with order preserved inside each span, joined by single spaces; splitting
the output returns those tokens, and the casing repair changes tokens only
up to letter case, as lowercasing both sides shows. -/
theorem c10_token_preservation :
    (∀ (cs : List Char) (parts : List (List Char)) (k : Nat),
        pySplit (pyStrip cs) = parts → 2 ≤ parts.length →
        surnameEndIdx parts = k → parts.drop k ≠ [] →
        formatNameCore cs = joinSpace ((parts.drop k ++ parts.take k).map caseFix) ∧
        pySplit (formatNameCore cs) = (parts.drop k ++ parts.take k).map caseFix) ∧
    (∀ p : List Char, pyLower (caseFix p) = pyLower p) := by
  refine ⟨?_, pyLower_caseFix⟩
  intro cs parts k hparts hlen hk hne
  obtain ⟨hout, hOK, _⟩ := formatNameCore_success_join cs parts k hparts hlen hk hne
  rw [hout, pySplit_joinSpace _ hOK]
  exact ⟨rfl, rfl⟩

/-- C10 witness: the theorem applied to "HEALY Ben", whose two tokens are
rotated and case-repaired into "Ben Healy". -/
theorem c10_token_preservation_witness :
    (pySplit (pyStrip (String.data "HEALY Ben")) =
        [String.data "HEALY", String.data "Ben"] ∧
      surnameEndIdx [String.data "HEALY", String.data "Ben"] = 1 ∧
      pyLower (caseFix (String.data "HEALY")) = pyLower (String.data "HEALY")) ∧
    formatNameCore (String.data "HEALY Ben") =
      joinSpace ((([String.data "HEALY", String.data "Ben"].drop 1 ++
        [String.data "HEALY", String.data "Ben"].take 1)).map caseFix) :=
  ⟨⟨by decide, by decide, c10_token_preservation.2 (String.data "HEALY")⟩,
    (c10_token_preservation.1 (String.data "HEALY Ben")
      [String.data "HEALY", String.data "Ben"] 1 (by decide) (by decide)
      (by decide) (by decide)).1⟩

end TdfPool
